import Mathlib

/-!
Verification of the `ledger` repository (WebRTC + SQL + CRDT replication).

Shallow embedding of the core data model and operations:
* `src/hlc.ts` — Hybrid Logical Clock (`HybridClock.now/receive/compare/toString/fromString`)
* `src/sql.ts` — operation capture (`captureInsert`, `captureUpdate`) and replay
  (`applyOperation`)
* `src/index.ts` — `RTCBattery.getCachedOperations`, `updateOperationsCache`, `getVersion`
* `src/storage.ts` — IndexedDB op log modelled as a key-sorted association list
* `src/signaling.ts` — reconnect policy of `SignalingClient`
* `server/signaling.js` — signaling relay modelled as a labelled transition system

JS numbers that hold millisecond timestamps and counters are modelled as `Nat`
(they stay far below 2^53 in every reachable use). JS strings are modelled as
Lean `String`/`List Char` with code-point order.
-/

namespace Ledger

/-- HLC triple, from `src/hlc.ts` (`interface HLC`). -/
structure HLC where
  ts : Nat
  counter : Nat
  nodeId : String
deriving DecidableEq, Repr

/-- `HybridClock.compare` from `src/hlc.ts`: lexicographic on `(ts, counter, nodeId)`,
returning `-1`, `0` or `1`. -/
def HLC.compare (a b : HLC) : Int :=
  if a.ts ≠ b.ts then (if a.ts < b.ts then -1 else 1)
  else if a.counter ≠ b.counter then (if a.counter < b.counter then -1 else 1)
  else if a.nodeId ≠ b.nodeId then (if a.nodeId < b.nodeId then -1 else 1)
  else 0

/-- Mutable state of a `HybridClock` instance (fields `ts`, `counter`, `nodeId`). -/
structure Clock where
  ts : Nat
  counter : Nat
  nodeId : String
deriving DecidableEq, Repr

/-- The HLC a clock state denotes (the object literal returned by `now`/`receive`). -/
def Clock.hlc (c : Clock) : HLC := ⟨c.ts, c.counter, c.nodeId⟩

/-- `HybridClock.now` from `src/hlc.ts`, with the `Date.now()` reading passed in
explicitly. Returns the produced HLC together with the updated clock state. -/
def Clock.now (c : Clock) (physicalNow : Nat) : HLC × Clock :=
  let c' : Clock :=
    if physicalNow > c.ts then { c with ts := physicalNow, counter := 0 }
    else { c with counter := c.counter + 1 }
  (c'.hlc, c')

/-- `HybridClock.receive` from `src/hlc.ts`, with the `Date.now()` reading passed in
explicitly. Note the source's trailing `this.ts = maxTs` assignment. -/
def Clock.receive (c : Clock) (remote : HLC) (physicalNow : Nat) : HLC × Clock :=
  let maxTs := max (max c.ts remote.ts) physicalNow
  let c' : Clock :=
    if maxTs = c.ts ∧ maxTs = remote.ts then
      { c with counter := max c.counter remote.counter + 1 }
    else if maxTs = c.ts then { c with counter := c.counter + 1 }
    else if maxTs = remote.ts then { c with ts := remote.ts, counter := remote.counter + 1 }
    else { c with ts := physicalNow, counter := 0 }
  let c'' : Clock := { c' with ts := maxTs }
  (c''.hlc, c'')

/-- A sequence of `now()` calls on one clock, fed by a sequence of wall-clock
readings; returns the produced HLCs in order. -/
def Clock.nowRun (c : Clock) : List Nat → List HLC
  | [] => []
  | p :: ps =>
    let r := c.now p
    r.1 :: r.2.nowRun ps

/-- Unfolding of `HLC.compare a b = -1` into the lexicographic order on
`(ts, counter, nodeId)`. -/
theorem HLC.compare_eq_neg_one_iff (a b : HLC) :
    HLC.compare a b = -1 ↔
      a.ts < b.ts ∨ (a.ts = b.ts ∧
        (a.counter < b.counter ∨ (a.counter = b.counter ∧ a.nodeId < b.nodeId))) := by
  unfold HLC.compare
  split_ifs with h1 h2 h3 h4 h5 h6 <;> simp_all

/-- After one `now` call the output strictly dominates the clock's previous value. -/
theorem Clock.hlc_compare_now (c : Clock) (p : Nat) :
    HLC.compare c.hlc (c.now p).1 = -1 := by
  rw [HLC.compare_eq_neg_one_iff]
  unfold Clock.now Clock.hlc
  split_ifs with h
  · left; simpa using h
  · right; simp

/-- The HLC returned by `now` equals the updated clock state's denotation. -/
theorem Clock.now_fst_eq_hlc (c : Clock) (p : Nat) : (c.now p).1 = (c.now p).2.hlc := by
  unfold Clock.now
  split_ifs <;> rfl

/-- Auxiliary: the chain property holds even with the pre-state's HLC prepended. -/
theorem Clock.nowRun_chain_aux (ps : List Nat) : ∀ c : Clock,
    List.Chain' (fun a b => HLC.compare a b = -1) (c.hlc :: c.nowRun ps) := by
  induction ps with
  | nil => intro c; simp [Clock.nowRun]
  | cons p ps ih =>
    intro c
    rw [Clock.nowRun, List.chain'_cons]
    refine ⟨c.hlc_compare_now p, ?_⟩
    rw [Clock.now_fst_eq_hlc]
    exact ih (c.now p).2

/-- C5: For every sequence of `now()` calls on a single node, and every sequence of
wall-clock readings (including regressions and repeats of the same millisecond),
successive outputs are strictly increasing under `compare`. -/
theorem hlc_now_monotone (c : Clock) (ps : List Nat) :
    List.Chain' (fun a b => HLC.compare a b = -1) (c.nowRun ps) :=
  (Clock.nowRun_chain_aux ps c).tail

/-- C4: For every remote HLC `r`, every local clock state and every wall-clock
reading, the timestamp returned by `receive(r)` is strictly greater than `r`
under `compare`: `compare(r, receive(r)) = -1 < 0`. -/
theorem hlc_receive_causality (c : Clock) (r : HLC) (p : Nat) :
    HLC.compare r (c.receive r p).1 = -1 := by
  rw [HLC.compare_eq_neg_one_iff]
  simp only [Clock.receive, Clock.hlc]
  split_ifs with h1 h2 h3 <;> simp_all <;> omega

/-! ### HLC string serialization (`HybridClock.toString` / `fromString`) -/

/-- JS base-36 digit character: `0`-`9` then `a`-`z` (as produced by
`Number.prototype.toString(36)`). -/
def digit36 (d : Nat) : Char :=
  if d < 10 then Char.ofNat (48 + d) else Char.ofNat (87 + d)

/-- Fuel-driven digit loop of `Number.prototype.toString(36)`; the fuel only
bounds the recursion depth and never runs out when it starts at the number
itself. -/
def toBase36Fuel : Nat → Nat → List Char
  | 0, n => [digit36 n]
  | fuel + 1, n =>
    if n < 36 then [digit36 n]
    else toBase36Fuel fuel (n / 36) ++ [digit36 (n % 36)]

/-- `n.toString(36)` for a natural number: most significant digit first, a single
`'0'` for zero. -/
def toBase36 (n : Nat) : List Char := toBase36Fuel n n

/-- The digit loop is insensitive to the exact amount of (sufficient) fuel. -/
theorem toBase36Fuel_congr : ∀ f₁ f₂ n, n ≤ f₁ → n ≤ f₂ →
    toBase36Fuel f₁ n = toBase36Fuel f₂ n := by
  intro f₁
  induction f₁ with
  | zero =>
    intro f₂ n h₁ _
    have hn : n = 0 := by omega
    subst hn
    cases f₂ <;> simp [toBase36Fuel]
  | succ f₁ ih =>
    intro f₂ n h₁ h₂
    cases f₂ with
    | zero =>
      have hn : n = 0 := by omega
      subst hn
      simp [toBase36Fuel]
    | succ f₂ =>
      rw [toBase36Fuel, toBase36Fuel]
      split_ifs with h
      · rfl
      · have hd : n / 36 < n := Nat.div_lt_self (by omega) (by omega)
        rw [ih f₂ (n / 36) (by omega) (by omega)]

/-- Unfolding rule of `toBase36` matching the JS digit loop. -/
theorem toBase36_unfold (n : Nat) :
    toBase36 n = if n < 36 then [digit36 n] else toBase36 (n / 36) ++ [digit36 (n % 36)] := by
  unfold toBase36
  rcases n with _ | m
  · simp [toBase36Fuel]
  · rw [toBase36Fuel]
    split_ifs with h
    · rfl
    · have hd : (m + 1) / 36 < m + 1 := Nat.div_lt_self (by omega) (by omega)
      rw [toBase36Fuel_congr m ((m + 1) / 36) ((m + 1) / 36) (by omega) le_rfl]

/-- `String.prototype.padStart(w, c)`. -/
def padStart (w : Nat) (c : Char) (l : List Char) : List Char :=
  List.replicate (w - l.length) c ++ l

/-- `HybridClock.toString` from `src/hlc.ts`:
`base36(ts).padStart(11,'0') ++ "-" ++ base36(counter).padStart(5,'0') ++ "-" ++ nodeId`. -/
def HLC.toStr (h : HLC) : List Char :=
  padStart 11 '0' (toBase36 h.ts) ++
    '-' :: (padStart 5 '0' (toBase36 h.counter) ++ '-' :: h.nodeId.data)

/-- String-typed variant of `HLC.toStr`. -/
def HLC.toString (h : HLC) : String := ⟨h.toStr⟩

/-- `String.prototype.split(sep)` for a one-character separator: always returns at
least one (possibly empty) piece. -/
def splitChar (c : Char) : List Char → List (List Char)
  | [] => [[]]
  | x :: xs =>
    match splitChar c xs with
    | [] => [[x]]
    | h :: t => if x = c then [] :: h :: t else (x :: h) :: t

/-- `Array.prototype.join(sep)` for a one-character separator. -/
def joinChar (c : Char) : List (List Char) → List Char
  | [] => []
  | [x] => x
  | x :: y :: t => x ++ c :: joinChar c (y :: t)

/-- Value of a base-36 digit accepted by JS `parseInt(_, 36)` (digits,
lowercase and uppercase letters). -/
def digitVal36 (ch : Char) : Option Nat :=
  if '0' ≤ ch ∧ ch ≤ '9' then some (ch.toNat - 48)
  else if 'a' ≤ ch ∧ ch ≤ 'z' then some (ch.toNat - 87)
  else if 'A' ≤ ch ∧ ch ≤ 'Z' then some (ch.toNat - 55)
  else none

/-- Greedy accumulation loop of `parseInt(_, 36)`: consumes digits until the first
non-digit character. -/
def parseInt36Aux : List Char → Nat → Nat
  | [], acc => acc
  | ch :: cs, acc =>
    match digitVal36 ch with
    | some d => parseInt36Aux cs (36 * acc + d)
    | none => acc

/-- JS `parseInt(s, 36)`; `none` models `NaN` (no leading digit). -/
def parseInt36 (l : List Char) : Option Nat :=
  match l with
  | [] => none
  | ch :: _ => if (digitVal36 ch).isSome then some (parseInt36Aux l 0) else none

/-- `HybridClock.fromString` from `src/hlc.ts`: split on `'-'`, parse the first two
parts base-36, reassemble the node id from the remaining parts. `none` models the
thrown error on fewer than 3 parts and `NaN` fields. -/
def HLC.fromString (s : String) : Option HLC :=
  let parts := splitChar '-' s.data
  if parts.length < 3 then none
  else
    match parseInt36 (parts.getD 0 []), parseInt36 (parts.getD 1 []) with
    | some t, some cnt => some ⟨t, cnt, ⟨joinChar '-' (parts.drop 2)⟩⟩
    | _, _ => none

/-- Every base-36 digit has the value it denotes. -/
theorem digitVal36_digit36_fin : ∀ d : Fin 36, digitVal36 (digit36 d.val) = some d.val := by
  decide

/-- Base-36 digits are strictly monotone as characters. -/
theorem digit36_mono_fin : ∀ a b : Fin 36, a.val < b.val → digit36 a.val < digit36 b.val := by
  decide

/-- No base-36 digit is the separator `'-'`. -/
theorem digit36_ne_dash_fin : ∀ d : Fin 36, digit36 d.val ≠ '-' := by
  decide

theorem digitVal36_digit36 {d : Nat} (h : d < 36) : digitVal36 (digit36 d) = some d :=
  digitVal36_digit36_fin ⟨d, h⟩

theorem digit36_mono {a b : Nat} (hab : a < b) (hb : b < 36) : digit36 a < digit36 b :=
  digit36_mono_fin ⟨a, by omega⟩ ⟨b, hb⟩ hab

theorem digit36_ne_dash {d : Nat} (h : d < 36) : digit36 d ≠ '-' :=
  digit36_ne_dash_fin ⟨d, h⟩

/-- `digit36` is injective below 36. -/
theorem digit36_inj {a b : Nat} (ha : a < 36) (hb : b < 36) (h : digit36 a = digit36 b) :
    a = b := by
  rcases Nat.lt_trichotomy a b with hlt | heq | hgt
  · exact absurd h (ne_of_lt (digit36_mono hlt hb))
  · exact heq
  · exact absurd h.symm (ne_of_lt (digit36_mono hgt ha))

/-- Every character of `toBase36 n` is a base-36 digit. -/
theorem toBase36_mem (n : Nat) : ∀ ch ∈ toBase36 n, ∃ d, d < 36 ∧ ch = digit36 d := by
  induction n using Nat.strong_induction_on with
  | _ n ih =>
    rw [toBase36_unfold]
    split_ifs with h
    · intro ch hch
      simp only [List.mem_singleton] at hch
      exact ⟨n, h, hch⟩
    · intro ch hch
      rcases List.mem_append.1 hch with hl | hr
      · exact ih (n / 36) (Nat.div_lt_self (by omega) (by omega)) ch hl
      · simp only [List.mem_singleton] at hr
        exact ⟨n % 36, Nat.mod_lt _ (by omega), hr⟩

/-- `toBase36` is never empty. -/
theorem toBase36_ne_nil (n : Nat) : toBase36 n ≠ [] := by
  rw [toBase36_unfold]
  split_ifs <;> simp

/-- `splitChar` always returns at least one piece. -/
theorem splitChar_ne_nil (c : Char) (l : List Char) : splitChar c l ≠ [] := by
  cases l with
  | nil => simp [splitChar]
  | cons x xs =>
    rw [splitChar]
    rcases hs : splitChar c xs with _ | ⟨h, t⟩
    · simp
    · split_ifs <;> simp

/-- Splitting a list that starts with the separator. -/
theorem splitChar_sep_cons (c : Char) (rest : List Char) :
    splitChar c (c :: rest) = [] :: splitChar c rest := by
  rw [splitChar]
  rcases hs : splitChar c rest with _ | ⟨h, t⟩
  · exact absurd hs (splitChar_ne_nil c rest)
  · simp

/-- Splitting after a separator-free block peels the block off. -/
theorem splitChar_block (c : Char) (T rest : List Char) (hT : ∀ ch ∈ T, ch ≠ c) :
    splitChar c (T ++ c :: rest) = T :: splitChar c rest := by
  induction T with
  | nil => simpa using splitChar_sep_cons c rest
  | cons x T ih =>
    have hx : x ≠ c := hT x (by simp)
    have ihh := ih (fun ch hch => hT ch (by simp [hch]))
    rw [List.cons_append, splitChar, ihh]
    simp [hx]

/-- `join('-')` undoes `split('-')`. -/
theorem joinChar_splitChar (c : Char) (l : List Char) :
    joinChar c (splitChar c l) = l := by
  induction l with
  | nil => simp [splitChar, joinChar]
  | cons x xs ih =>
    rw [splitChar]
    rcases hs : splitChar c xs with _ | ⟨h, t⟩
    · exact absurd hs (splitChar_ne_nil c xs)
    · rw [hs] at ih
      split_ifs with hx
    -- both branches reduce to the same join computation
      · cases t with
        | nil => simp only [joinChar] at ih ⊢; simp [hx, ih]
        | cons y t => simp only [joinChar] at ih ⊢; simp [hx, ih]
      · cases t with
        | nil => simp only [joinChar] at ih ⊢; simp [ih]
        | cons y t => simp only [joinChar] at ih ⊢; simp [ih]

/-- The accumulator loop distributes over appends of all-digit blocks. -/
theorem parseInt36Aux_append (l₁ l₂ : List Char) (a : Nat)
    (h : ∀ ch ∈ l₁, (digitVal36 ch).isSome) :
    parseInt36Aux (l₁ ++ l₂) a = parseInt36Aux l₂ (parseInt36Aux l₁ a) := by
  induction l₁ generalizing a with
  | nil => simp [parseInt36Aux]
  | cons x xs ih =>
    have hx : (digitVal36 x).isSome := h x (by simp)
    rcases hd : digitVal36 x with _ | d
    · rw [hd] at hx; simp at hx
    · rw [List.cons_append]
      simp only [parseInt36Aux, hd]
      exact ih _ (fun ch hch => h ch (by simp [hch]))

/-- Parsing the digits of `n` recovers `n` (with the accumulator scaled). -/
theorem parseInt36Aux_toBase36 (n : Nat) : ∀ a : Nat,
    parseInt36Aux (toBase36 n) a = a * 36 ^ (toBase36 n).length + n := by
  induction n using Nat.strong_induction_on with
  | _ n ih =>
    intro a
    rw [toBase36_unfold]
    split_ifs with h
    · simp only [parseInt36Aux, digitVal36_digit36 h]
      simp [Nat.mul_comm]
    · have hdiv : n / 36 < n := Nat.div_lt_self (by omega) (by omega)
      have hall : ∀ ch ∈ toBase36 (n / 36), (digitVal36 ch).isSome := by
        intro ch hch
        obtain ⟨d, hd, rfl⟩ := toBase36_mem _ ch hch
        simp [digitVal36_digit36 hd]
      rw [parseInt36Aux_append _ _ _ hall, ih _ hdiv a]
      simp only [parseInt36Aux, digitVal36_digit36 (Nat.mod_lt n (by omega))]
      have hlen : ((toBase36 (n / 36)) ++ [digit36 (n % 36)]).length
          = (toBase36 (n / 36)).length + 1 := by simp
      rw [hlen, pow_succ]
      have := Nat.div_add_mod n 36
      ring_nf
      omega

/-- Leading zeros scale the accumulator but add nothing. -/
theorem parseInt36Aux_replicate_zero (k : Nat) : ∀ a : Nat,
    parseInt36Aux (List.replicate k '0') a = a * 36 ^ k := by
  induction k with
  | zero => intro a; simp [parseInt36Aux]
  | succ k ih =>
    intro a
    have h0 : digitVal36 '0' = some 0 := by decide
    rw [List.replicate_succ]
    simp only [parseInt36Aux, h0]
    rw [ih]
    ring

/-- `parseInt(_, 36)` of the zero-padded base-36 form of `n` returns `n`. -/
theorem parseInt36_padded (w n : Nat) : parseInt36 (padStart w '0' (toBase36 n)) = some n := by
  have hall0 : ∀ ch ∈ List.replicate (w - (toBase36 n).length) '0',
      (digitVal36 ch).isSome := by
    intro ch hch
    rw [List.eq_of_mem_replicate hch]
    decide
  have hdig : ∀ ch ∈ toBase36 n, (digitVal36 ch).isSome := by
    intro ch hch
    obtain ⟨d, hd, rfl⟩ := toBase36_mem _ ch hch
    simp [digitVal36_digit36 hd]
  have haux : parseInt36Aux (padStart w '0' (toBase36 n)) 0 = n := by
    rw [padStart, parseInt36Aux_append _ _ _ hall0, parseInt36Aux_replicate_zero]
    have := parseInt36Aux_toBase36 n 0
    simpa using this
  rcases hp : padStart w '0' (toBase36 n) with _ | ⟨ch, rest⟩
  · exfalso
    have := toBase36_ne_nil n
    rcases h36 : toBase36 n with _ | _
    · exact this h36
    · rw [padStart, h36] at hp
      simp at hp
  · have hch : (digitVal36 ch).isSome := by
      have : ch ∈ padStart w '0' (toBase36 n) := by rw [hp]; simp
      rcases List.mem_append.1 this with hl | hr
      · exact hall0 ch hl
      · exact hdig ch hr
    rw [parseInt36, hch]
    simp only [if_true]
    rw [← hp, haux]

/-- Big-endian fixed-width base-36 digit expansion (proof device for relating the
padded serialization to numeric order). -/
def natDigitsBE : Nat → Nat → List Nat
  | 0, _ => []
  | w + 1, n => (n / 36 ^ w) :: natDigitsBE w (n % 36 ^ w)

/-- Division/mod decomposition of the strict order. -/
theorem div_mod_lt_iff (B m n : Nat) (hB : 0 < B) :
    m < n ↔ m / B < n / B ∨ (m / B = n / B ∧ m % B < n % B) := by
  have hm := Nat.div_add_mod m B
  have hn := Nat.div_add_mod n B
  have hrm := Nat.mod_lt m hB
  have hrn := Nat.mod_lt n hB
  constructor
  · intro h
    rcases Nat.lt_trichotomy (m / B) (n / B) with hq | hq | hq
    · exact Or.inl hq
    · refine Or.inr ⟨hq, ?_⟩
      rw [← hm, ← hn, hq] at h
      omega
    · exfalso
      have h2 : B * (n / B + 1) ≤ B * (m / B) := Nat.mul_le_mul_left B hq
      rw [Nat.mul_add, Nat.mul_one] at h2
      omega
  · rintro (hq | ⟨hq, hr⟩)
    · have h2 : B * (m / B + 1) ≤ B * (n / B) := Nat.mul_le_mul_left B hq
      rw [Nat.mul_add, Nat.mul_one] at h2
      omega
    · rw [← hm, ← hn, hq]
      omega

/-- Every fixed-width digit is below the base. -/
theorem natDigitsBE_lt (w : Nat) : ∀ n, n < 36 ^ w → ∀ d ∈ natDigitsBE w n, d < 36 := by
  induction w with
  | zero => intro n _ d hd; simp [natDigitsBE] at hd
  | succ w ih =>
    intro n hn d hd
    rw [natDigitsBE] at hd
    rcases List.mem_cons.1 hd with rfl | hmem
    · have : n < 36 ^ w * 36 := by rw [← pow_succ]; exact hn
      exact Nat.div_lt_of_lt_mul this
    · exact ih (n % 36 ^ w) (Nat.mod_lt _ (Nat.pos_pow_of_pos w (by omega))) d hmem

/-- Generic cons unfolding of the lexicographic order over a linear order. -/
theorem lex_cons_iff' {α : Type} [LinearOrder α] (a b : α) (l₁ l₂ : List α) :
    List.Lex (· < ·) (a :: l₁) (b :: l₂) ↔ a < b ∨ (a = b ∧ List.Lex (· < ·) l₁ l₂) := by
  constructor
  · intro h
    cases h with
    | cons h => exact Or.inr ⟨rfl, h⟩
    | rel h => exact Or.inl h
  · rintro (h | ⟨rfl, h⟩)
    · exact List.Lex.rel h
    · exact List.Lex.cons h

/-- Lexicographic order on equal-width digit lists coincides with numeric order. -/
theorem natDigitsBE_lex_iff (w : Nat) : ∀ m n, m < 36 ^ w → n < 36 ^ w →
    (List.Lex (· < ·) (natDigitsBE w m) (natDigitsBE w n) ↔ m < n) := by
  induction w with
  | zero =>
    intro m n hm hn
    simp only [pow_zero, Nat.lt_one_iff] at hm hn
    subst hm; subst hn
    simp [natDigitsBE]
  | succ w ih =>
    intro m n hm hn
    have hB : 0 < 36 ^ w := Nat.pos_pow_of_pos w (by omega)
    rw [natDigitsBE, natDigitsBE, lex_cons_iff',
      ih (m % 36 ^ w) (n % 36 ^ w) (Nat.mod_lt _ hB) (Nat.mod_lt _ hB),
      div_mod_lt_iff (36 ^ w) m n hB]

/-- Mapping strictly monotone digits preserves the lexicographic order. -/
theorem lex_map_digit36_iff : ∀ l₁ l₂ : List Nat, (∀ d ∈ l₁, d < 36) → (∀ d ∈ l₂, d < 36) →
    (List.Lex (· < ·) (l₁.map digit36) (l₂.map digit36) ↔ List.Lex (· < ·) l₁ l₂) := by
  intro l₁
  induction l₁ with
  | nil =>
    intro l₂ _ _
    cases l₂ with
    | nil => simp
    | cons b t => simp [List.Lex.nil]
  | cons a l₁ ih =>
    intro l₂ h₁ h₂
    cases l₂ with
    | nil => simp
    | cons b l₂ =>
      have ha : a < 36 := h₁ a (by simp)
      have hb : b < 36 := h₂ b (by simp)
      rw [List.map_cons, List.map_cons, lex_cons_iff', lex_cons_iff',
        ih l₂ (fun d hd => h₁ d (by simp [hd])) (fun d hd => h₂ d (by simp [hd]))]
      constructor
      · rintro (h | ⟨heq, h⟩)
        · left
          rcases Nat.lt_trichotomy a b with hab | rfl | hab
          · exact hab
          · exact absurd h (lt_irrefl _)
          · exact absurd (digit36_mono hab ha) (asymm h)
        · exact Or.inr ⟨digit36_inj ha hb heq, h⟩
      · rintro (h | ⟨rfl, h⟩)
        · exact Or.inl (digit36_mono h hb)
        · exact Or.inr ⟨rfl, h⟩

/-- Fixed-width expansions have the fixed width. -/
theorem natDigitsBE_length : ∀ (w n : Nat), (natDigitsBE w n).length = w := by
  intro w
  induction w with
  | zero => intro n; simp [natDigitsBE]
  | succ w ih => intro n; simp [natDigitsBE, ih]

/-- Peeling the least significant digit off a fixed-width expansion. -/
theorem natDigitsBE_snoc (w : Nat) : ∀ n, n < 36 ^ (w + 1) →
    natDigitsBE (w + 1) n = natDigitsBE w (n / 36) ++ [n % 36] := by
  induction w with
  | zero =>
    intro n hn
    have hn' : n < 36 := by simpa using hn
    simp [natDigitsBE, Nat.mod_eq_of_lt hn']
  | succ w ih =>
    intro n _
    have hB : 0 < 36 ^ (w + 1) := Nat.pos_pow_of_pos _ (by omega)
    have hmod : n % 36 ^ (w + 1) < 36 ^ (w + 1) := Nat.mod_lt _ hB
    have h1 : n / 36 ^ (w + 1) = n / 36 / 36 ^ w := by
      rw [Nat.div_div_eq_div_mul, ← pow_succ']
    have h2 : n % 36 ^ (w + 1) / 36 = n / 36 % 36 ^ w := by
      rw [pow_succ']
      exact Nat.mod_mul_right_div_self n 36 (36 ^ w)
    have h3 : n % 36 ^ (w + 1) % 36 = n % 36 := by
      refine Nat.mod_mod_of_dvd n ⟨36 ^ w, ?_⟩
      rw [pow_succ']
    calc natDigitsBE (w + 2) n
        = (n / 36 ^ (w + 1)) :: natDigitsBE (w + 1) (n % 36 ^ (w + 1)) := rfl
      _ = (n / 36 ^ (w + 1)) ::
            (natDigitsBE w (n % 36 ^ (w + 1) / 36) ++ [n % 36 ^ (w + 1) % 36]) := by
          rw [ih _ hmod]
      _ = (n / 36 / 36 ^ w) :: (natDigitsBE w (n / 36 % 36 ^ w) ++ [n % 36]) := by
          rw [h1, h2, h3]
      _ = natDigitsBE (w + 1) (n / 36) ++ [n % 36] := rfl

/-- The zero-padded serialization equals the fixed-width digit expansion, rendered. -/
theorem padded_eq_map (w : Nat) : ∀ n, n < 36 ^ (w + 1) →
    padStart (w + 1) '0' (toBase36 n) = (natDigitsBE (w + 1) n).map digit36 := by
  induction w with
  | zero =>
    intro n hn
    have hn' : n < 36 := by simpa using hn
    rw [toBase36_unfold]
    rw [if_pos hn']
    simp [padStart, natDigitsBE, Nat.mod_eq_of_lt hn']
  | succ w ih =>
    intro n hn
    have hdiv : n / 36 < 36 ^ (w + 1) := by
      refine Nat.div_lt_of_lt_mul ?_
      rw [← pow_succ']
      exact hn
    rw [natDigitsBE_snoc _ n hn, List.map_append, ← ih _ hdiv]
    by_cases h : n < 36
    · have hd0 : n / 36 = 0 := Nat.div_eq_of_lt h
      have hm : n % 36 = n := Nat.mod_eq_of_lt h
      rw [toBase36_unfold, if_pos h, hd0, hm]
      rw [toBase36_unfold]
      rw [if_pos (by omega : (0 : Nat) < 36)]
      have hz : digit36 0 = '0' := by decide
      simp only [padStart, List.length_singleton, hz, List.map_singleton]
      rw [show (w + 1 + 1 - 1) = (w + 1 - 1) + 1 by omega]
      simp [List.replicate_succ', List.append_assoc]
    · rw [toBase36_unfold, if_neg h]
      simp only [padStart, List.length_append, List.length_singleton, List.map_singleton]
      rw [show (w + 1 + 1 - ((toBase36 (n / 36)).length + 1))
          = (w + 1 - (toBase36 (n / 36)).length) by omega]
      simp [List.append_assoc]

/-- Padded blocks of bounded numbers have the full fixed width. -/
theorem padded_length (w n : Nat) (hn : n < 36 ^ (w + 1)) :
    (padStart (w + 1) '0' (toBase36 n)).length = w + 1 := by
  rw [padded_eq_map w n hn, List.length_map, natDigitsBE_length]

/-- Padded serialization is strictly order-preserving on bounded numbers. -/
theorem padded_lex_iff (w m n : Nat) (hm : m < 36 ^ (w + 1)) (hn : n < 36 ^ (w + 1)) :
    (List.Lex (· < ·) (padStart (w + 1) '0' (toBase36 m)) (padStart (w + 1) '0' (toBase36 n))
      ↔ m < n) := by
  rw [padded_eq_map w m hm, padded_eq_map w n hn,
    lex_map_digit36_iff _ _ (natDigitsBE_lt _ _ hm) (natDigitsBE_lt _ _ hn),
    natDigitsBE_lex_iff _ _ _ hm hn]

/-- Padded serialization is injective on bounded numbers. -/
theorem padded_eq_iff (w m n : Nat) (hm : m < 36 ^ (w + 1)) (hn : n < 36 ^ (w + 1)) :
    padStart (w + 1) '0' (toBase36 m) = padStart (w + 1) '0' (toBase36 n) ↔ m = n := by
  constructor
  · intro h
    rcases Nat.lt_trichotomy m n with hlt | heq | hgt
    · exfalso
      have hx := (padded_lex_iff w m n hm hn).2 hlt
      rw [h] at hx
      have := (padded_lex_iff w n n hn hn).1 hx
      omega
    · exact heq
    · exfalso
      have hx := (padded_lex_iff w n m hn hm).2 hgt
      rw [h] at hx
      have := (padded_lex_iff w n n hn hn).1 hx
      omega
  · intro h; rw [h]

/-- Lexicographic comparison through equal-length blocks. -/
theorem lex_append_iff {α : Type} [LinearOrder α] :
    ∀ (A B u v : List α), A.length = B.length →
      (List.Lex (· < ·) (A ++ u) (B ++ v) ↔
        List.Lex (· < ·) A B ∨ (A = B ∧ List.Lex (· < ·) u v)) := by
  intro A
  induction A with
  | nil =>
    intro B u v h
    cases B with
    | nil => simp
    | cons b B => simp at h
  | cons a A ih =>
    intro B u v h
    cases B with
    | nil => simp at h
    | cons b B =>
      simp only [List.length_cons, Nat.succ.injEq] at h
      rw [List.cons_append, List.cons_append, lex_cons_iff', lex_cons_iff', ih B u v h]
      constructor
      · rintro (hab | ⟨rfl, hAB | ⟨rfl, huv⟩⟩)
        · exact Or.inl (Or.inl hab)
        · exact Or.inl (Or.inr ⟨rfl, hAB⟩)
        · exact Or.inr ⟨rfl, huv⟩
      · rintro ((hab | ⟨rfl, hAB⟩) | ⟨heq, huv⟩)
        · exact Or.inl hab
        · exact Or.inr ⟨rfl, Or.inl hAB⟩
        · rw [List.cons.injEq] at heq
          exact Or.inr ⟨heq.1, Or.inr ⟨heq.2, huv⟩⟩

/-- No padded base-36 block contains the separator. -/
theorem padStart_mem_ne_dash (w n : Nat) :
    ∀ ch ∈ padStart w '0' (toBase36 n), ch ≠ '-' := by
  intro ch hch
  rcases List.mem_append.1 hch with hl | hr
  · rw [List.eq_of_mem_replicate hl]
    decide
  · obtain ⟨d, hd, rfl⟩ := toBase36_mem _ ch hr
    exact digit36_ne_dash hd

/-- Splitting the serialized HLC recovers the three parts (the node id may itself
split further). -/
theorem splitChar_toStr (h : HLC) :
    splitChar '-' h.toStr
      = padStart 11 '0' (toBase36 h.ts) :: padStart 5 '0' (toBase36 h.counter)
        :: splitChar '-' h.nodeId.data := by
  unfold HLC.toStr
  rw [splitChar_block _ _ _ (padStart_mem_ne_dash 11 h.ts),
    splitChar_block _ _ _ (padStart_mem_ne_dash 5 h.counter)]

/-- `fromString` inverts `toString` (for all HLCs in the `Nat` model). -/
theorem fromString_toString (h : HLC) : HLC.fromString (HLC.toString h) = some h := by
  have hsplit : splitChar '-' (HLC.toString h).data
      = padStart 11 '0' (toBase36 h.ts) :: padStart 5 '0' (toBase36 h.counter)
        :: splitChar '-' h.nodeId.data := splitChar_toStr h
  simp only [HLC.fromString, hsplit]
  rcases hsp : splitChar '-' h.nodeId.data with _ | ⟨p, rest⟩
  · exact absurd hsp (splitChar_ne_nil '-' h.nodeId.data)
  · rw [if_neg (by simp)]
    simp only [List.getD_cons_zero, List.getD_cons_succ, List.drop_succ_cons, List.drop_zero]
    rw [parseInt36_padded 11 h.ts, parseInt36_padded 5 h.counter]
    rw [← hsp, joinChar_splitChar]

/-- The serialized form is strictly order-preserving: lexicographic string order
coincides with `compare` on bounded HLCs. -/
theorem toString_lt_iff (a b : HLC)
    (ha1 : a.ts < 36 ^ 11) (ha2 : a.counter < 36 ^ 5)
    (hb1 : b.ts < 36 ^ 11) (hb2 : b.counter < 36 ^ 5) :
    HLC.toString a < HLC.toString b ↔ HLC.compare a b = -1 := by
  have hnode : List.Lex (· < ·) a.nodeId.data b.nodeId.data ↔ a.nodeId < b.nodeId := by
    rw [String.lt_iff_toList_lt]
    exact Iff.rfl
  have hlen11 : (padStart 11 '0' (toBase36 a.ts)).length
      = (padStart 11 '0' (toBase36 b.ts)).length := by
    rw [padded_length 10 a.ts ha1, padded_length 10 b.ts hb1]
  have hlen5 : (padStart 5 '0' (toBase36 a.counter)).length
      = (padStart 5 '0' (toBase36 b.counter)).length := by
    rw [padded_length 4 a.counter ha2, padded_length 4 b.counter hb2]
  rw [String.lt_iff_toList_lt]
  show List.Lex (· < ·) (HLC.toStr a) (HLC.toStr b) ↔ HLC.compare a b = -1
  unfold HLC.toStr
  rw [lex_append_iff _ _ _ _ hlen11, lex_cons_iff', lex_append_iff _ _ _ _ hlen5,
    lex_cons_iff', padded_lex_iff 10 _ _ ha1 hb1, padded_eq_iff 10 _ _ ha1 hb1,
    padded_lex_iff 4 _ _ ha2 hb2, padded_eq_iff 4 _ _ ha2 hb2, hnode,
    HLC.compare_eq_neg_one_iff]
  simp [lt_irrefl]

/-- C6: For every HLC whose `ts` fits in 11 base-36 digits and whose `counter` fits
in 5 base-36 digits, `fromString(toString(h)) = h` (including when `nodeId` itself
contains `'-'`); and for two such HLCs, `compare(a, b) < 0` iff `toString(a)` is
lexicographically less than `toString(b)`. -/
theorem hlc_string_roundtrip_order (a b : HLC)
    (ha1 : a.ts < 36 ^ 11) (ha2 : a.counter < 36 ^ 5)
    (hb1 : b.ts < 36 ^ 11) (hb2 : b.counter < 36 ^ 5) :
    HLC.fromString (HLC.toString a) = some a ∧
      (HLC.compare a b = -1 ↔ HLC.toString a < HLC.toString b) :=
  ⟨fromString_toString a, (toString_lt_iff a b ha1 ha2 hb1 hb2).symm⟩

/-- Witness for C6 at concrete HLCs whose node ids contain `'-'`. -/
theorem hlc_string_roundtrip_order_witness :
    HLC.fromString (HLC.toString ⟨40, 2, "node-x"⟩) = some ⟨40, 2, "node-x"⟩ ∧
      (HLC.compare ⟨40, 2, "node-x"⟩ ⟨40, 3, "n-y"⟩ = -1 ↔
        HLC.toString ⟨40, 2, "node-x"⟩ < HLC.toString ⟨40, 3, "n-y"⟩) :=
  hlc_string_roundtrip_order ⟨40, 2, "node-x"⟩ ⟨40, 3, "n-y"⟩
    (by decide) (by decide) (by decide) (by decide)

/-! ### Operation model (`src/types.ts`) and SQL replay (`src/sql.ts`) -/

/-- SQL-typed value carried in operation payloads; `undef` models the JS
`undefined` that appears when a parameter index is out of range. -/
inductive Value where
  | nullV : Value
  | intV : Int → Value
  | strV : String → Value
  | undef : Value
deriving DecidableEq, Repr

/-- `OperationType` from `src/types.ts`. -/
inductive OpType where
  | insert | update | delete
deriving DecidableEq, Repr

/-- A JS object (`Record<string, unknown>`) as an insertion-ordered association
list, as produced by property assignment. -/
abbrev Obj := List (String × Value)

/-- JS property assignment `o[k] = v`: updates in place, else appends. -/
def objSet : Obj → String → Value → Obj
  | [], k, v => [(k, v)]
  | (k', v') :: t, k, v => if k' = k then (k, v) :: t else (k', v') :: objSet t k v

/-- JS property read `o[k]`, `undefined` when absent. -/
def objGet (o : Obj) (k : String) : Value :=
  (((o.find? (fun p => p.1 == k)).map Prod.snd).getD Value.undef)

/-- `Operation` from `src/types.ts`. `values` is `[]` where the source leaves the
optional field out (DELETE), matching `op.values || {}` at every use site. -/
structure Operation where
  hlc : HLC
  type : OpType
  table : String
  pk : Obj
  values : Obj
deriving DecidableEq, Repr

/-- Row identity: table name plus the tuple of primary-key values, in the
schema's primary-key column order. -/
abbrev RowKey := String × List Value

/-- Relational abstraction of the sql.js database: rows indexed by their
primary-key tuple. -/
abbrev Db := List (RowKey × Obj)

/-- Store (or replace) the row with the given key. -/
def dbSet : Db → RowKey → Obj → Db
  | [], k, row => [(k, row)]
  | (k', row') :: t, k, row =>
    if k' = k then (k, row) :: t else (k', row') :: dbSet t k row

/-- Merge the SET columns into the row with the given key, if present. -/
def dbUpdateRow : Db → RowKey → Obj → Db
  | [], _, _ => []
  | (k', row') :: t, k, vals =>
    if k' = k then (k', vals.foldl (fun r p => objSet r p.1 p.2) row') :: t
    else (k', row') :: dbUpdateRow t k vals

/-- Remove the row with the given key. -/
def dbRemove : Db → RowKey → Db
  | [], _ => []
  | (k', row') :: t, k => if k' = k then t else (k', row') :: dbRemove t k

/-- `SQLLayer.applyOperation` from `src/sql.ts` (lines 141-172), over the
relational abstraction: `INSERT` runs `INSERT OR REPLACE` (replacing the row that
shares the table's primary key, which SQLite derives from the inserted values);
`UPDATE` sets the SET columns of the rows matching the `pk` equality conditions;
`DELETE` removes them. `pkOf` is the schema's primary-key column list per table.
No HLC comparison or buffering happens anywhere on this path. -/
def applyOperation (pkOf : String → List String) (db : Db) (op : Operation) : Db :=
  match op.type with
  | .insert =>
    let key : RowKey := (op.table, (pkOf op.table).map (objGet op.values))
    dbSet db key op.values
  | .update =>
    let key : RowKey := (op.table, (pkOf op.table).map (objGet op.pk))
    dbUpdateRow db key op.values
  | .delete =>
    let key : RowKey := (op.table, (pkOf op.table).map (objGet op.pk))
    dbRemove db key

/-- Applying a batch of remote operations in arrival order
(`RTCBattery.applyRemoteOperation` calls `sql.applyOperation` once per op, in the
order delivered). -/
def applyOps (pkOf : String → List String) (db : Db) (ops : List Operation) : Db :=
  ops.foldl (applyOperation pkOf) db

/-- A single-table schema assigning primary key `id` to every table. -/
def pkIdOnly : String → List String := fun _t => ["id"]

/-- C1 (code bug): two inserts with the same primary key but different values,
bearing distinct HLCs, are a set of operations on which `applyOperation` is
order-dependent: the two permutations of the same set yield different database
states, so nodes that apply the same set in different orders do not converge. -/
theorem applyOperation_order_dependent :
    ([⟨⟨1, 0, "a"⟩, OpType.insert, "notes", [("id", Value.intV 1)],
        [("id", Value.intV 1), ("content", Value.strV "x")]⟩,
      ⟨⟨2, 0, "b"⟩, OpType.insert, "notes", [("id", Value.intV 1)],
        [("id", Value.intV 1), ("content", Value.strV "y")]⟩] : List Operation).Perm
      [⟨⟨2, 0, "b"⟩, OpType.insert, "notes", [("id", Value.intV 1)],
        [("id", Value.intV 1), ("content", Value.strV "y")]⟩,
       ⟨⟨1, 0, "a"⟩, OpType.insert, "notes", [("id", Value.intV 1)],
        [("id", Value.intV 1), ("content", Value.strV "x")]⟩]
    ∧ applyOps pkIdOnly []
        [⟨⟨1, 0, "a"⟩, OpType.insert, "notes", [("id", Value.intV 1)],
           [("id", Value.intV 1), ("content", Value.strV "x")]⟩,
         ⟨⟨2, 0, "b"⟩, OpType.insert, "notes", [("id", Value.intV 1)],
           [("id", Value.intV 1), ("content", Value.strV "y")]⟩]
      ≠ applyOps pkIdOnly []
        [⟨⟨2, 0, "b"⟩, OpType.insert, "notes", [("id", Value.intV 1)],
           [("id", Value.intV 1), ("content", Value.strV "y")]⟩,
         ⟨⟨1, 0, "a"⟩, OpType.insert, "notes", [("id", Value.intV 1)],
           [("id", Value.intV 1), ("content", Value.strV "x")]⟩] := by
  decide

/-! ### Operation capture: INSERT (`SQLLayer.captureInsert`, `src/sql.ts` 244-269) -/

/-- Table schema view (`getTableSchema`): the primary-key column list is the only
part the capture functions consult. -/
structure TableSchema where
  pkColumns : List String
deriving DecidableEq, Repr

/-- The `columns.forEach((col, i) => ...)` loop of `captureInsert`: builds the
`values` object from every listed column and the `pk` object from the listed
columns that are declared primary keys. -/
def insLoop (pkCols : List String) (params : List Value) :
    List String → Nat → Obj → Obj → Obj × Obj
  | [], _i, v, p => (v, p)
  | c :: cs, i, v, p =>
    insLoop pkCols params cs (i + 1) (objSet v c (params.getD i Value.undef))
      (if pkCols.contains c then objSet p c (params.getD i Value.undef) else p)

/-- `SQLLayer.captureInsert`, post-parse: the regex extraction of the table name
and the parenthesized column list is represented by the structured `table` and
`cols` arguments (a failed regex or unknown table corresponds to
`schema = none`). Note the source checks only that the schema has a non-empty
primary key; it never checks that the INSERT column list covers it. -/
def captureInsert (schema : Option TableSchema) (table : String) (cols : List String)
    (params : List Value) (hlc : HLC) : Option Operation :=
  match schema with
  | none => none
  | some s =>
    if s.pkColumns = [] then none
    else
      let maps := insLoop s.pkColumns params cols 0 [] []
      some ⟨hlc, OpType.insert, table, maps.2, maps.1⟩

/-- The clean column-to-parameter pairing: column `i` maps to caller parameter
`i`. -/
def pairsFrom (vals : List Value) : Nat → List String → Obj
  | _, [] => []
  | i, c :: cs => (c, vals.getD i Value.undef) :: pairsFrom vals (i + 1) cs

/-- Assigning a fresh key appends. -/
theorem objSet_of_not_mem (o : Obj) (k : String) (v : Value)
    (h : k ∉ o.map Prod.fst) : objSet o k v = o ++ [(k, v)] := by
  induction o with
  | nil => rfl
  | cons p t ih =>
    obtain ⟨k', v'⟩ := p
    simp only [List.map_cons, List.mem_cons, not_or] at h
    rw [objSet, if_neg (fun hc => h.1 hc.symm), ih h.2, List.cons_append]

/-- Characterization of the INSERT capture loop on duplicate-free column lists
whose names are fresh for both accumulators. -/
theorem insLoop_spec (pkCols : List String) (params : List Value) :
    ∀ (cols : List String) (i : Nat) (accV accP : Obj),
      cols.Nodup →
      (∀ c ∈ cols, c ∉ accV.map Prod.fst) →
      (∀ c ∈ cols, c ∉ accP.map Prod.fst) →
      insLoop pkCols params cols i accV accP
        = (accV ++ pairsFrom params i cols,
           accP ++ (pairsFrom params i cols).filter (fun p => pkCols.contains p.1)) := by
  intro cols
  induction cols with
  | nil => intro i accV accP _ _ _; simp [insLoop, pairsFrom]
  | cons c cs ih =>
    intro i accV accP hnd hfv hfp
    have hcv : c ∉ accV.map Prod.fst := hfv c (by simp)
    have hcp : c ∉ accP.map Prod.fst := hfp c (by simp)
    have hnd' := (List.nodup_cons.1 hnd)
    rw [insLoop, objSet_of_not_mem accV c _ hcv]
    have hpk : (if pkCols.contains c then objSet accP c (params.getD i Value.undef) else accP)
        = accP ++ (if pkCols.contains c then [(c, params.getD i Value.undef)] else []) := by
      split_ifs with hc
      · exact objSet_of_not_mem accP c _ hcp
      · simp
    rw [hpk, ih (i + 1) _ _ hnd'.2 ?_ ?_]
    · rw [pairsFrom]
      simp only [List.filter_cons]
      split_ifs with hc <;> simp [List.append_assoc]
    · intro d hd
      simp only [List.map_append, List.mem_append, List.map_cons, List.map_nil]
      push_neg
      exact ⟨fun hmem => hfv d (by simp [hd]) hmem,
        by simp; exact fun hdc => hnd'.1 (hdc ▸ hd)⟩
    · intro d hd
      simp only [List.map_append, List.mem_append]
      push_neg
      refine ⟨fun hmem => hfp d (by simp [hd]) hmem, ?_⟩
      split_ifs with hc <;> simp
      exact fun hdc => hnd'.1 (hdc ▸ hd)

/-- C2 (amended): on a synced table, `captureInsert` emits an operation even when
primary-key columns are missing from the INSERT column list; the emitted `pk`
holds exactly the listed columns that are primary keys (possibly none of them),
and `values` pairs the i-th listed column with the i-th caller parameter. -/
theorem captureInsert_emits_partial_pk (s : TableSchema) (table : String)
    (cols : List String) (params : List Value) (hlc : HLC)
    (hpk : s.pkColumns ≠ []) (hnd : cols.Nodup) :
    captureInsert (some s) table cols params hlc
      = some ⟨hlc, OpType.insert, table,
          (pairsFrom params 0 cols).filter (fun p => s.pkColumns.contains p.1),
          pairsFrom params 0 cols⟩ := by
  rw [captureInsert]
  rw [if_neg hpk]
  rw [insLoop_spec s.pkColumns params cols 0 [] [] hnd (by simp) (by simp)]
  simp

/-- Witness for the amended C2 at a concrete INSERT that omits the primary-key
column `org` of a table with primary key `(id, org)`. -/
theorem captureInsert_emits_partial_pk_witness :
    captureInsert (some ⟨["id", "org"]⟩) "notes" ["id", "content"]
        [Value.intV 7, Value.strV "hi"] ⟨1, 0, "n"⟩
      = some ⟨⟨1, 0, "n"⟩, OpType.insert, "notes",
          [("id", Value.intV 7)],
          [("id", Value.intV 7), ("content", Value.strV "hi")]⟩ := by
  have h := captureInsert_emits_partial_pk ⟨["id", "org"]⟩ "notes" ["id", "content"]
    [Value.intV 7, Value.strV "hi"] ⟨1, 0, "n"⟩ (by decide) (by decide)
  rw [h]
  decide

/-- C2 (counterexample): the INSERT above omits the primary-key column `org`, yet
an operation is produced (the claim asserts none is), refuting the claim as
stated; local execution is unaffected either way. -/
theorem captureInsert_missing_pk_produces_op :
    (captureInsert (some ⟨["id", "org"]⟩) "notes" ["id", "content"]
        [Value.intV 7, Value.strV "hi"] ⟨1, 0, "n"⟩).isSome = true := by
  decide

/-! ### Op log, cache and delta sync (`src/storage.ts`, `src/index.ts`) -/

/-- The op-log key of an operation (`StoredOperation.id = HybridClock.toString(op.hlc)`). -/
def opKey (op : Operation) : String := HLC.toString op.hlc

/-- `Storage.saveOperation` as seen through IndexedDB: `put` on the key path `id`
inserts into the key-ordered store, overwriting an entry with the same key. -/
def insertSorted : List Operation → Operation → List Operation
  | [], op => [op]
  | x :: xs, op =>
    if opKey op < opKey x then op :: x :: xs
    else if opKey op = opKey x then op :: xs
    else x :: insertSorted xs op

/-- Storage effect of `RTCBattery.applyRemoteOperation`
(`storage.saveOperation(op)` followed by `updateOperationsCache`). -/
def applyRemoteLog (log : List Operation) (op : Operation) : List Operation :=
  insertSorted log op

/-- Storage effect of `RTCBattery.exec` on the ops the capture step produced
(`saveOperation` per op, in emission order). -/
def execLog (log : List Operation) (ops : List Operation) : List Operation :=
  ops.foldl insertSorted log

/-- `updateOperationsCache`: the cache is `storage.getOperations()` (IndexedDB
`getAll`, ascending key order, i.e. the log itself), and the cached version is
the key of its last element, or `undefined` when empty; `getVersion()` returns
exactly this cached version. -/
def cacheVersionOf (log : List Operation) : Option String :=
  log.getLast?.map opKey

/-- `RTCBattery.getCachedOperations` from `src/index.ts` (lines 126-143): no
cursor (or the falsy empty string, which can never be a key) returns the whole
cache; otherwise `findIndex` of the entry whose key equals the cursor, returning
everything after it, or the whole cache when the cursor is not found. -/
def getCachedOperations (cache : List Operation) (fromVersion : Option String) :
    List Operation :=
  match fromVersion with
  | none => cache
  | some v =>
    match cache.findIdx? (fun op => opKey op == v) with
    | none => cache
    | some i => cache.drop (i + 1)

/-- The operations put on a `sync-response` by `WebRTCManager.handleChannelMessage`:
the `onSyncRequest` callback is `getCachedOperations` on the request's cursor. -/
def syncResponseOps (cache : List Operation) (fromVersion : Option String) :
    List Operation :=
  getCachedOperations cache fromVersion

/-- Sortedness of an op list: keys strictly ascending. -/
def KeySorted (l : List Operation) : Prop :=
  List.Pairwise (fun a b => opKey a < opKey b) l

/-- Known cursor: everything after the matching entry is everything with a
strictly greater key. -/
theorem getCached_known_cursor (v : String) : ∀ cache : List Operation,
    KeySorted cache → v ∈ cache.map opKey →
    getCachedOperations cache (some v)
      = cache.filter (fun op => decide (v < opKey op)) := by
  intro cache
  induction cache with
  | nil => intro _ hv; simp at hv
  | cons x rest ih =>
    intro hs hv
    have hx := List.pairwise_cons.1 hs
    by_cases hxv : opKey x = v
    · have hfind : (x :: rest).findIdx? (fun op => opKey op == v) = some 0 := by
        rw [List.findIdx?_cons]
        simp [hxv]
      simp only [getCachedOperations, hfind, List.drop_succ_cons, List.drop_zero,
        List.filter_cons]
      rw [if_neg (by simp [hxv])]
      have hall : ∀ y ∈ rest, decide (v < opKey y) = true := by
        intro y hy
        simp [hxv ▸ hx.1 y hy]
      rw [List.filter_eq_self.2 hall]
    · have hvrest : v ∈ rest.map opKey := by
        rcases List.mem_map.1 hv with ⟨y, hy, hkey⟩
        rcases List.mem_cons.1 hy with rfl | hmem
        · exact absurd hkey hxv
        · exact List.mem_map.2 ⟨y, hmem, hkey⟩
      have hxltv : opKey x < v := by
        rcases List.mem_map.1 hvrest with ⟨y, hy, hkey⟩
        exact hkey ▸ hx.1 y hy
      have ihh := ih hx.2 hvrest
      simp only [getCachedOperations] at ihh ⊢
      rcases hfr : rest.findIdx? (fun op => opKey op == v) with _ | i
      · exfalso
        rcases List.mem_map.1 hvrest with ⟨y, hy, hkey⟩
        have := List.findIdx?_eq_none_iff.1 hfr y hy
        simp [hkey] at this
      · rw [List.findIdx?_cons, if_neg (by simp [hxv]), List.findIdx?_succ, hfr]
        simp only [Option.map_some, List.drop_succ_cons]
        show List.drop (i + 1) rest = List.filter (fun op => decide (v < opKey op)) (x :: rest)
        rw [List.filter_cons, if_neg (by simp [asymm hxltv])]
        rw [hfr] at ihh
        exact ihh

/-- Unknown cursor: the whole cache is returned. -/
theorem getCached_unknown_cursor (v : String) (cache : List Operation)
    (hv : v ∉ cache.map opKey) :
    getCachedOperations cache (some v) = cache := by
  have hfr : cache.findIdx? (fun op => opKey op == v) = none := by
    rw [List.findIdx?_eq_none_iff]
    intro x hx
    simp only [beq_eq_false_iff_ne, ne_eq]
    exact fun h => hv (List.mem_map.2 ⟨x, hx, h⟩)
  simp [getCachedOperations, hfr]

/-- C3: on a strictly key-sorted cache (which the IndexedDB-backed cache always
is), a sync request whose cursor is a key of the log is answered with exactly the
entries whose key is strictly greater, in key order; an absent or unknown cursor
is answered with the full log. -/
theorem sync_response_delta (cache : List Operation) (hs : KeySorted cache) :
    syncResponseOps cache none = cache ∧
    ∀ v : String,
      (v ∈ cache.map opKey →
        syncResponseOps cache (some v) = cache.filter (fun op => decide (v < opKey op))) ∧
      (v ∉ cache.map opKey → syncResponseOps cache (some v) = cache) :=
  ⟨rfl, fun v =>
    ⟨getCached_known_cursor v cache hs, getCached_unknown_cursor v cache⟩⟩

/-- Witness for C3 at a concrete two-entry sorted cache: cursor at the first key
returns exactly the strictly later entry. -/
theorem sync_response_delta_witness :
    syncResponseOps
        [⟨⟨1, 0, "a"⟩, OpType.insert, "t", [("id", Value.intV 1)], []⟩,
         ⟨⟨2, 0, "a"⟩, OpType.insert, "t", [("id", Value.intV 2)], []⟩]
        (some (opKey ⟨⟨1, 0, "a"⟩, OpType.insert, "t", [("id", Value.intV 1)], []⟩))
      = List.filter
          (fun op => decide (opKey ⟨⟨1, 0, "a"⟩, OpType.insert, "t", [("id", Value.intV 1)], []⟩
            < opKey op))
          [⟨⟨1, 0, "a"⟩, OpType.insert, "t", [("id", Value.intV 1)], []⟩,
           ⟨⟨2, 0, "a"⟩, OpType.insert, "t", [("id", Value.intV 2)], []⟩] :=
  ((sync_response_delta
      [⟨⟨1, 0, "a"⟩, OpType.insert, "t", [("id", Value.intV 1)], []⟩,
       ⟨⟨2, 0, "a"⟩, OpType.insert, "t", [("id", Value.intV 2)], []⟩]
      (by
        unfold KeySorted
        refine List.pairwise_cons.2 ⟨?_, List.pairwise_singleton _ _⟩
        intro y hy
        rw [List.mem_singleton] at hy
        subst hy
        show opKey _ < opKey _
        unfold opKey
        rw [String.lt_iff_toList_lt]
        decide)).2
    (opKey ⟨⟨1, 0, "a"⟩, OpType.insert, "t", [("id", Value.intV 1)], []⟩)).1
    (by
      rw [List.map_cons, List.mem_cons]
      exact Or.inl rfl)

/-- `k` is the greatest op-log key. -/
def IsGreatestKey (log : List Operation) (k : String) : Prop :=
  k ∈ log.map opKey ∧ ∀ k' ∈ log.map opKey, k' ≤ k

/-- The last element of a strictly key-sorted log carries its greatest key. -/
theorem sorted_getLast_greatest : ∀ log : List Operation, KeySorted log →
    ∀ op, log.getLast? = some op → IsGreatestKey log (opKey op) := by
  intro log
  induction log with
  | nil => intro _ op h; simp at h
  | cons x rest ih =>
    intro hs op hlast
    have hx := List.pairwise_cons.1 hs
    cases rest with
    | nil =>
      simp only [List.getLast?_singleton, Option.some.injEq] at hlast
      subst hlast
      exact ⟨by simp, by simp⟩
    | cons y t =>
      rw [List.getLast?_cons_cons] at hlast
      obtain ⟨hmem, hbound⟩ := ih hx.2 op hlast
      refine ⟨by simp only [List.map_cons, List.mem_cons]; right; simpa using hmem, ?_⟩
      intro k' hk'
      rcases List.mem_cons.1 hk' with rfl | hk'
      · rcases List.mem_map.1 hmem with ⟨z, hz, hkey⟩
        exact le_of_lt (hkey ▸ hx.1 z hz)
      · exact hbound k' hk'

/-- Membership after a sorted insert. -/
theorem insertSorted_mem : ∀ (log : List Operation) (op y : Operation),
    y ∈ insertSorted log op → y = op ∨ y ∈ log := by
  intro log
  induction log with
  | nil => intro op y h; simpa [insertSorted] using h
  | cons x rest ih =>
    intro op y h
    rw [insertSorted] at h
    split_ifs at h with h1 h2
    · rcases List.mem_cons.1 h with rfl | h
      · exact Or.inl rfl
      · exact Or.inr h
    · rcases List.mem_cons.1 h with rfl | h
      · exact Or.inl rfl
      · exact Or.inr (List.mem_cons.2 (Or.inr h))
    · rcases List.mem_cons.1 h with rfl | h
      · exact Or.inr (by simp)
      · rcases ih op y h with rfl | h
        · exact Or.inl rfl
        · exact Or.inr (List.mem_cons.2 (Or.inr h))

/-- A sorted insert keeps the log strictly key-sorted. -/
theorem insertSorted_sorted : ∀ (log : List Operation) (op : Operation),
    KeySorted log → KeySorted (insertSorted log op) := by
  intro log
  induction log with
  | nil => intro op _; simp [insertSorted, KeySorted]
  | cons x rest ih =>
    intro op hs
    have hx := List.pairwise_cons.1 hs
    rw [insertSorted]
    split_ifs with h1 h2
    · refine List.pairwise_cons.2 ⟨?_, hs⟩
      intro y hy
      rcases List.mem_cons.1 hy with rfl | hy
      · exact h1
      · exact lt_trans h1 (hx.1 y hy)
    · refine List.pairwise_cons.2 ⟨?_, hx.2⟩
      intro y hy
      exact h2 ▸ hx.1 y hy
    · have hlt : opKey x < opKey op := by
        rcases lt_trichotomy (opKey op) (opKey x) with h | h | h
        · exact absurd h h1
        · exact absurd h h2
        · exact h
      refine List.pairwise_cons.2 ⟨?_, ih op hx.2⟩
      intro y hy
      rcases insertSorted_mem rest op y hy with rfl | hy
      · exact hlt
      · exact hx.1 y hy

/-- A sorted insert never yields the empty log. -/
theorem insertSorted_ne_nil (log : List Operation) (op : Operation) :
    insertSorted log op ≠ [] := by
  cases log with
  | nil => simp [insertSorted]
  | cons x rest =>
    rw [insertSorted]
    split_ifs <;> simp

/-- Folding sorted inserts keeps the log sorted. -/
theorem execLog_sorted (ops : List Operation) : ∀ log : List Operation,
    KeySorted log → KeySorted (execLog log ops) := by
  induction ops with
  | nil => intro log hs; exact hs
  | cons op ops ih =>
    intro log hs
    exact ih (insertSorted log op) (insertSorted_sorted log op hs)

/-- C10: on a strictly key-sorted log, the cached version that `getVersion()`
returns is the key of the greatest entry, or nothing when the log is empty, and
this is re-established for the logs produced by `applyRemoteOperation` (one
sorted insert) and by an `exec` that produced operations (a fold of sorted
inserts). -/
theorem getVersion_greatest_key (log : List Operation) (op : Operation)
    (ops : List Operation) (hs : KeySorted log) :
    (cacheVersionOf log = none ↔ log = []) ∧
    (∀ k, cacheVersionOf log = some k → IsGreatestKey log k) ∧
    (∃ k, cacheVersionOf (applyRemoteLog log op) = some k ∧
      IsGreatestKey (applyRemoteLog log op) k) ∧
    (∀ k, cacheVersionOf (execLog log ops) = some k → IsGreatestKey (execLog log ops) k) := by
  refine ⟨?_, ?_, ?_, ?_⟩
  · unfold cacheVersionOf
    cases log with
    | nil => simp
    | cons x rest => simp [List.getLast?_eq_getLast]
  · intro k hk
    unfold cacheVersionOf at hk
    rcases hl : log.getLast? with _ | last
    · rw [hl] at hk; simp at hk
    · rw [hl, Option.map_some'] at hk
      rw [Option.some.injEq] at hk
      exact hk ▸ sorted_getLast_greatest log hs last hl
  · have hsorted := insertSorted_sorted log op hs
    have hne := insertSorted_ne_nil log op
    rcases hl : (insertSorted log op).getLast? with _ | last
    · exact absurd (List.getLast?_eq_none_iff.1 hl) hne
    · exact ⟨opKey last, by simp [applyRemoteLog, cacheVersionOf, hl],
        sorted_getLast_greatest _ hsorted last hl⟩
  · intro k hk
    have hsorted := execLog_sorted ops log hs
    unfold cacheVersionOf at hk
    rcases hl : (execLog log ops).getLast? with _ | last
    · rw [hl] at hk; simp at hk
    · rw [hl, Option.map_some'] at hk
      rw [Option.some.injEq] at hk
      exact hk ▸ sorted_getLast_greatest _ hsorted last hl

/-- Witness for C10 on the empty log, one remote apply and a two-op exec. -/
theorem getVersion_greatest_key_witness :
    (cacheVersionOf ([] : List Operation) = none ↔ ([] : List Operation) = []) ∧
    (∀ k, cacheVersionOf ([] : List Operation) = some k → IsGreatestKey [] k) ∧
    (∃ k, cacheVersionOf (applyRemoteLog []
        ⟨⟨5, 0, "n"⟩, OpType.insert, "t", [("id", Value.intV 1)], []⟩) = some k ∧
      IsGreatestKey (applyRemoteLog []
        ⟨⟨5, 0, "n"⟩, OpType.insert, "t", [("id", Value.intV 1)], []⟩) k) ∧
    (∀ k, cacheVersionOf (execLog []
        [⟨⟨5, 0, "n"⟩, OpType.insert, "t", [("id", Value.intV 1)], []⟩,
         ⟨⟨6, 0, "n"⟩, OpType.insert, "t", [("id", Value.intV 2)], []⟩]) = some k →
      IsGreatestKey (execLog []
        [⟨⟨5, 0, "n"⟩, OpType.insert, "t", [("id", Value.intV 1)], []⟩,
         ⟨⟨6, 0, "n"⟩, OpType.insert, "t", [("id", Value.intV 2)], []⟩]) k) :=
  getVersion_greatest_key []
    ⟨⟨5, 0, "n"⟩, OpType.insert, "t", [("id", Value.intV 1)], []⟩
    [⟨⟨5, 0, "n"⟩, OpType.insert, "t", [("id", Value.intV 1)], []⟩,
     ⟨⟨6, 0, "n"⟩, OpType.insert, "t", [("id", Value.intV 2)], []⟩]
    (by simp [KeySorted])

/-! ### Operation capture: UPDATE (`SQLLayer.captureUpdate`, `src/sql.ts` 271-316) -/

/-- `String.prototype.trim()`. -/
def trimChars (l : List Char) : List Char :=
  ((l.dropWhile Char.isWhitespace).reverse.dropWhile Char.isWhitespace).reverse

/-- `part.split('=')[0]`: the characters before the first `'='`. -/
def beforeEq (part : List Char) : List Char :=
  (splitChar '=' part).getD 0 []

/-- The SET-column extraction of `captureUpdate`:
`setClause.split(',').map(s => s.split('=')[0].trim())`. -/
def setColsOf (setClause : String) : List String :=
  (splitChar ',' setClause.data).map (fun part => ⟨trimChars (beforeEq part)⟩)

/-- `pkColumns.join(', ')`. -/
def joinSep (sep : String) : List String → String
  | [] => ""
  | [x] => x
  | x :: y :: t => x ++ sep ++ joinSep sep (y :: t)

/-- The pre-execution row enumeration query:
`SELECT <pk-cols> FROM <table> WHERE <where>`. -/
def selectSqlFor (pkCols : List String) (table wherePart : String) : String :=
  "SELECT " ++ joinSep ", " pkCols ++ " FROM " ++ table ++ " WHERE " ++ wherePart

/-- The `forEach((col, i) => m[col] = vals[i])` object-building loop shared by the
`pk` and `values` constructions of `captureUpdate`. -/
def fillLoop (vals : List Value) : List String → Nat → Obj → Obj
  | [], _i, acc => acc
  | c :: cs, i, acc => fillLoop vals cs (i + 1) (objSet acc c (vals.getD i Value.undef))

/-- `SQLLayer.captureUpdate`, post-parse: the regexes that extract the table
name, the SET clause text and the WHERE clause text are represented by the
structured `table`, `setClause` and `whereOpt` arguments (an absent WHERE is
`none`; a failed table/SET regex or unknown table corresponds to
`schema = none`). `dbSelect` is the sql.js prepare/bind/step oracle answering the
row-enumeration query with the already-stored rows; it receives the SELECT text
and the WHERE-bound parameters (the caller parameters after the first `|SET|`). -/
def captureUpdate (schema : Option TableSchema) (table setClause : String)
    (whereOpt : Option String) (params : List Value) (hlc : HLC)
    (dbSelect : String → List Value → List (List Value)) : List Operation :=
  match schema with
  | none => []
  | some s =>
    if s.pkColumns = [] then []
    else
      let wherePart := whereOpt.getD "1=1"
      let setCols := setColsOf setClause
      let setParamCount := setCols.length
      let whereParams := params.drop setParamCount
      let rows := dbSelect (selectSqlFor s.pkColumns table wherePart) whereParams
      rows.map (fun pkValues =>
        ⟨hlc, OpType.update, table,
          fillLoop pkValues s.pkColumns 0 [],
          fillLoop params setCols 0 []⟩)

/-- Characterization of the object-building loop on duplicate-free,
accumulator-fresh column lists. -/
theorem fillLoop_spec (vals : List Value) : ∀ (cols : List String) (i : Nat) (acc : Obj),
    cols.Nodup → (∀ c ∈ cols, c ∉ acc.map Prod.fst) →
    fillLoop vals cols i acc = acc ++ pairsFrom vals i cols := by
  intro cols
  induction cols with
  | nil => intro i acc _ _; simp [fillLoop, pairsFrom]
  | cons c cs ih =>
    intro i acc hnd hf
    have hnd' := List.nodup_cons.1 hnd
    rw [fillLoop, objSet_of_not_mem acc c _ (hf c (by simp)),
      ih (i + 1) _ hnd'.2 ?_, pairsFrom]
    · simp [List.append_assoc]
    · intro d hd
      simp only [List.map_append, List.mem_append, List.map_cons, List.map_nil]
      push_neg
      refine ⟨fun hmem => hf d (by simp [hd]) hmem, by
        simp only [List.mem_singleton]
        exact fun hdc => hnd'.1 (hdc ▸ hd)⟩

/-- C7: on a synced table, `captureUpdate` emits one `Update` per row returned by
the pre-execution `SELECT <pk-cols> FROM <table> WHERE <where>` (`1=1` when no
WHERE is present) bound to the caller parameters after the first `|SET|`; every
emitted operation carries the given HLC, its `pk` pairs the schema's primary-key
columns with the row's values, and its `values` pairs the i-th SET column with
the i-th caller parameter. -/
theorem captureUpdate_per_row (s : TableSchema) (table setClause : String)
    (whereOpt : Option String) (params : List Value) (hlc : HLC)
    (dbSelect : String → List Value → List (List Value))
    (hpk : s.pkColumns ≠ []) (hndpk : s.pkColumns.Nodup)
    (hndset : (setColsOf setClause).Nodup) :
    captureUpdate (some s) table setClause whereOpt params hlc dbSelect
      = (dbSelect (selectSqlFor s.pkColumns table (whereOpt.getD "1=1"))
          (params.drop (setColsOf setClause).length)).map
          (fun row => ⟨hlc, OpType.update, table,
            pairsFrom row 0 s.pkColumns,
            pairsFrom params 0 (setColsOf setClause)⟩) := by
  rw [captureUpdate]
  rw [if_neg hpk]
  refine List.map_congr_left ?_
  intro row _
  rw [fillLoop_spec row s.pkColumns 0 [] hndpk (by simp),
    fillLoop_spec params (setColsOf setClause) 0 [] hndset (by simp)]
  simp

/-- Witness for C7 at a concrete `UPDATE notes SET content = ?, extra = ?
WHERE id = ?` whose pre-select returns two rows: two `Update`s sharing the HLC,
with the SET parameters as `values` and the trailing parameter bound to WHERE. -/
theorem captureUpdate_per_row_witness :
    captureUpdate (some ⟨["id"]⟩) "notes" "content = ?, extra = ?" (some "id = ?")
        [Value.strV "c", Value.strV "e", Value.intV 1] ⟨9, 0, "n"⟩
        (fun _sql _params => [[Value.intV 1], [Value.intV 2]])
      = ((fun _sql _params => [[Value.intV 1], [Value.intV 2]])
            (selectSqlFor ["id"] "notes" ((some "id = ?").getD "1=1"))
            ([Value.strV "c", Value.strV "e", Value.intV 1].drop
              (setColsOf "content = ?, extra = ?").length)).map
          (fun row => ⟨⟨9, 0, "n"⟩, OpType.update, "notes",
            pairsFrom row 0 (["id"] : List String),
            pairsFrom [Value.strV "c", Value.strV "e", Value.intV 1] 0
              (setColsOf "content = ?, extra = ?")⟩) :=
  captureUpdate_per_row ⟨["id"]⟩ "notes" "content = ?, extra = ?" (some "id = ?")
    [Value.strV "c", Value.strV "e", Value.intV 1] ⟨9, 0, "n"⟩
    (fun _sql _params => [[Value.intV 1], [Value.intV 2]])
    (by decide) (by decide) (by decide)

/-! ### Signaling client reconnect policy (`src/signaling.ts`) -/

/-- `maxReconnectAttempts` (`src/signaling.ts` line 28). -/
def maxReconnectAttempts : Nat := 10

/-- `baseDelay` in milliseconds (line 29). -/
def baseDelay : Nat := 1000

/-- `maxDelay` in milliseconds (line 30). -/
def maxDelay : Nat := 30000

/-- Mutable state of a `SignalingClient` relevant to reconnection. -/
structure SigState where
  reconnectAttempts : Nat
  shouldReconnect : Bool
  isInitialConnect : Bool
deriving DecidableEq, Repr

/-- Externally visible effects of the client: emitted events plus the `connect()`
promise settling. -/
inductive SigEmit where
  | connectFailed
  | reconnecting (attempt : Nat)
  | reconnected
  | disconnected
  | joined
deriving DecidableEq, Repr

/-- `SignalingClient.handleDisconnect` (lines 97-125): returns the new state, the
emitted events and the delay of the scheduled reconnect timer, if any. -/
def handleDisconnect (s : SigState) : SigState × List SigEmit × Option Nat :=
  if !s.shouldReconnect then (s, [SigEmit.disconnected], none)
  else if s.reconnectAttempts < maxReconnectAttempts then
    let attempts := s.reconnectAttempts + 1
    let delay := min (baseDelay * 2 ^ (attempts - 1)) maxDelay
    ({ s with reconnectAttempts := attempts }, [SigEmit.reconnecting attempts], some delay)
  else (s, [SigEmit.disconnected], none)

/-- WebSocket lifecycle events delivered to the handlers `connect()` installs. -/
inductive WsEvent where
  | opened | errored | closed
deriving DecidableEq, Repr

/-- One handler dispatch: `onOpen` resets the attempt counter, emits
`reconnected` on non-initial connects, sends `join` and resolves; `onError`
rejects the promise only on the initial connect; `onclose` runs
`handleDisconnect`. -/
def stepSig (s : SigState) : WsEvent → SigState × List SigEmit × Option Nat
  | .opened =>
    ({ s with reconnectAttempts := 0, isInitialConnect := false },
      (if !s.isInitialConnect then [SigEmit.reconnected] else []) ++ [SigEmit.joined], none)
  | .errored => (s, if s.isInitialConnect then [SigEmit.connectFailed] else [], none)
  | .closed => handleDisconnect s

/-- Run a socket event sequence, collecting emissions and scheduled delays. -/
def runSig : SigState → List WsEvent → SigState × List SigEmit × List Nat
  | s, [] => (s, [], [])
  | s, e :: es =>
    let r := stepSig s e
    let rest := runSig r.1 es
    (rest.1, r.2.1 ++ rest.2.1, r.2.2.toList ++ rest.2.2)

/-- State of a freshly constructed client right after `connect()` set
`shouldReconnect`. -/
def initialSigState : SigState := ⟨0, true, true⟩

/-- C9 (amended): while reconnection is enabled, the n-th disconnect in a row
(for `n = attempts+1 ≤ 10`) schedules a reconnect after
`min(1000·2^(n-1), 30000)` ms and emits `reconnecting n`; past the 10th attempt
a close emits `disconnected` and schedules nothing. From an established
connection, eleven successive failures emit `reconnecting 1..10` then
`disconnected`, with the capped exponential delays. An initial connection
failure rejects `connect()` with an error, but the accompanying close event
still schedules reconnect attempt 1 after 1000 ms. -/
theorem reconnect_backoff (s : SigState) (hsr : s.shouldReconnect = true) :
    (s.reconnectAttempts < 10 →
      handleDisconnect s
        = ({ s with reconnectAttempts := s.reconnectAttempts + 1 },
            [SigEmit.reconnecting (s.reconnectAttempts + 1)],
            some (min (1000 * 2 ^ s.reconnectAttempts) 30000))) ∧
    (10 ≤ s.reconnectAttempts →
      handleDisconnect s = (s, [SigEmit.disconnected], none)) ∧
    runSig ⟨0, true, false⟩ (List.replicate 11 WsEvent.closed)
      = (⟨10, true, false⟩,
          [SigEmit.reconnecting 1, SigEmit.reconnecting 2, SigEmit.reconnecting 3,
           SigEmit.reconnecting 4, SigEmit.reconnecting 5, SigEmit.reconnecting 6,
           SigEmit.reconnecting 7, SigEmit.reconnecting 8, SigEmit.reconnecting 9,
           SigEmit.reconnecting 10, SigEmit.disconnected],
          [1000, 2000, 4000, 8000, 16000, 30000, 30000, 30000, 30000, 30000]) ∧
    runSig initialSigState [WsEvent.errored, WsEvent.closed]
      = (⟨1, true, true⟩, [SigEmit.connectFailed, SigEmit.reconnecting 1], [1000]) := by
  refine ⟨?_, ?_, by decide, by decide⟩
  · intro h
    unfold handleDisconnect
    rw [hsr]
    simp only [Bool.not_true, Bool.false_eq_true, if_false]
    simp only [maxReconnectAttempts, baseDelay, maxDelay]
    rw [if_pos h]
    simp
  · intro h
    unfold handleDisconnect
    rw [hsr]
    simp only [Bool.not_true, Bool.false_eq_true, if_false]
    simp only [maxReconnectAttempts]
    rw [if_neg (by omega)]

/-- Witness for C9 at attempt counter 3 with reconnection enabled: the 4th
attempt is scheduled after `min(1000·2^3, 30000) = 8000` ms. -/
theorem reconnect_backoff_witness :
    handleDisconnect ⟨3, true, false⟩
      = (⟨4, true, false⟩, [SigEmit.reconnecting 4], some 8000) := by
  have h := (reconnect_backoff ⟨3, true, false⟩ (by decide)).1 (by decide)
  rw [h]
  decide

/-- C9 (counterexample): after an initial connection failure (error then close on
the first socket), the client does schedule a reconnect (attempt 1, 1000 ms) —
the error is surfaced, but not *instead of* scheduling reconnects, refuting the
claim as stated. -/
theorem initial_failure_schedules_reconnect :
    (runSig initialSigState [WsEvent.errored, WsEvent.closed]).2.2 = [1000] ∧
    (runSig initialSigState [WsEvent.errored, WsEvent.closed]).2.1
      = [SigEmit.connectFailed, SigEmit.reconnecting 1] := by
  decide

/-! ### Signaling relay (`server/signaling.js`) -/

/-- `Map.prototype.get`. -/
def aget {κ α : Type} [DecidableEq κ] : List (κ × α) → κ → Option α
  | [], _ => none
  | (k', v) :: t, k => if k' = k then some v else aget t k

/-- `Map.prototype.set`. -/
def aset {κ α : Type} [DecidableEq κ] : List (κ × α) → κ → α → List (κ × α)
  | [], k, v => [(k, v)]
  | (k', v') :: t, k, v => if k' = k then (k, v) :: t else (k', v') :: aset t k v

/-- `Map.prototype.delete`. -/
def adel {κ α : Type} [DecidableEq κ] : List (κ × α) → κ → List (κ × α)
  | [], _ => []
  | (k', v') :: t, k => if k' = k then t else (k', v') :: adel t k

theorem aget_mem {κ α : Type} [DecidableEq κ] :
    ∀ (m : List (κ × α)) (k : κ) (v : α), aget m k = some v → (k, v) ∈ m := by
  intro m
  induction m with
  | nil => intro k v h; simp [aget] at h
  | cons p t ih =>
    intro k v h
    obtain ⟨k', v'⟩ := p
    rw [aget] at h
    split_ifs at h with hk
    · rw [Option.some.injEq] at h
      subst hk; subst h
      simp
    · exact List.mem_cons.2 (Or.inr (ih k v h))

theorem mem_aset_sub {κ α : Type} [DecidableEq κ] :
    ∀ (m : List (κ × α)) (k : κ) (v : α) (p : κ × α),
      p ∈ aset m k v → p = (k, v) ∨ p ∈ m := by
  intro m
  induction m with
  | nil =>
    intro k v p h
    simp [aset] at h
    exact Or.inl h
  | cons q t ih =>
    intro k v p h
    obtain ⟨k', v'⟩ := q
    rw [aset] at h
    split_ifs at h with hk
    · rcases List.mem_cons.1 h with rfl | h
      · exact Or.inl rfl
      · exact Or.inr (List.mem_cons.2 (Or.inr h))
    · rcases List.mem_cons.1 h with rfl | h
      · exact Or.inr (by simp)
      · rcases ih k v p h with rfl | h
        · exact Or.inl rfl
        · exact Or.inr (List.mem_cons.2 (Or.inr h))

theorem mem_adel_sub {κ α : Type} [DecidableEq κ] :
    ∀ (m : List (κ × α)) (k : κ) (p : κ × α), p ∈ adel m k → p ∈ m := by
  intro m
  induction m with
  | nil =>
    intro k p h
    simp [adel] at h
  | cons q t ih =>
    intro k p h
    obtain ⟨k', v'⟩ := q
    rw [adel] at h
    split_ifs at h with hk
    · exact List.mem_cons.2 (Or.inr h)
    · rcases List.mem_cons.1 h with rfl | h
      · simp
      · exact List.mem_cons.2 (Or.inr (ih k p h))

theorem aget_aset {κ α : Type} [DecidableEq κ] :
    ∀ (m : List (κ × α)) (k : κ) (v : α) (k' : κ),
      aget (aset m k v) k' = if k = k' then some v else aget m k' := by
  intro m
  induction m with
  | nil => intro k v k'; simp [aset, aget]
  | cons q t ih =>
    intro k v k'
    obtain ⟨k₀, v₀⟩ := q
    by_cases h1 : k₀ = k
    · subst h1
      by_cases h2 : k₀ = k'
      · subst h2
        simp [aset, aget]
      · simp [aset, aget, h2]
    · by_cases h2 : k₀ = k'
      · subst h2
        have hk : ¬ k = k₀ := fun h => h1 h.symm
        simp [aset, aget, h1, hk]
      · simp [aset, aget, h1, h2, ih]

/-- Relay state: `rooms` maps tokens to room objects (represented by ids into
`objs`); `roomTokens` records (ghost) the token a room object was created for;
`connRoom` is the `room` variable each connection closure captured at upgrade
time; `connPeer` is the closure's `peerId` variable. -/
structure RelayState where
  nextRoom : Nat
  rooms : List (String × Nat)
  roomTokens : List (Nat × String)
  objs : List (Nat × List (String × Nat))
  connRoom : List (Nat × (String × Nat))
  connPeer : List (Nat × String)
deriving DecidableEq, Repr

/-- Externally triggered relay events: a WebSocket upgrade with a token, a `join`
message, a forwarded `offer`/`answer`/`ice` message (all three share the same
forwarding branch), and a socket close. -/
inductive RelayEvent where
  | connect (c : Nat) (token : String)
  | join (c : Nat) (pid : String)
  | fwdMsg (c : Nat) (target : String)
  | close (c : Nat)
deriving DecidableEq, Repr

/-- Frames the relay sends, tagged with the receiving connection. -/
inductive Frame where
  | peersList
  | peerJoin (pid : String)
  | peerLeave (pid : String)
  | fwd (sender : Nat)
deriving DecidableEq, Repr

/-- One step of the relay state machine (`wss.on('connection')` and the
per-connection handlers, `server/signaling.js` 19-90), returning the new state
and the frames delivered. An empty token is refused with close code 4001; a
`connect` with an already-used connection id is ignored (socket objects are
fresh). -/
def relayStep (s : RelayState) : RelayEvent → RelayState × List (Nat × Frame)
  | .connect c token =>
    if token = "" then (s, [])
    else if (aget s.connRoom c).isSome then (s, [])
    else
      match aget s.rooms token with
      | some rid => ({ s with connRoom := aset s.connRoom c (token, rid) }, [])
      | none =>
        let rid := s.nextRoom
        ({ s with
            nextRoom := rid + 1,
            rooms := aset s.rooms token rid,
            roomTokens := aset s.roomTokens rid token,
            objs := aset s.objs rid [],
            connRoom := aset s.connRoom c (token, rid) }, [])
  | .join c pid =>
    match aget s.connRoom c with
    | none => (s, [])
    | some (_t, rid) =>
      let members := (aget s.objs rid).getD []
      let members' := aset members pid c
      ({ s with
          objs := aset s.objs rid members',
          connPeer := aset s.connPeer c pid },
        (c, Frame.peersList) ::
          (members'.filter (fun p => p.1 != pid)).map (fun p => (p.2, Frame.peerJoin pid)))
  | .fwdMsg c target =>
    match aget s.connRoom c with
    | none => (s, [])
    | some (_t, rid) =>
      let members := (aget s.objs rid).getD []
      match aget members target with
      | none => (s, [])
      | some c' => (s, [(c', Frame.fwd c)])
  | .close c =>
    match aget s.connPeer c, aget s.connRoom c with
    | some pid, some (t, rid) =>
      let members := (aget s.objs rid).getD []
      let members' := adel members pid
      ({ s with
          objs := aset s.objs rid members',
          rooms := if members' = [] then adel s.rooms t else s.rooms },
        (members'.filter (fun p => p.1 != pid)).map (fun p => (p.2, Frame.peerLeave pid)))
    | _, _ => (s, [])

/-- The relay before any connection. -/
def relayInit : RelayState := ⟨0, [], [], [], [], []⟩

/-- Run an event trace from a state. -/
def relayRun : RelayState → List RelayEvent → RelayState
  | s, [] => s
  | s, e :: es => relayRun (relayStep s e).1 es

/-- Relay invariant: every connection's captured room was created for its token;
every member of a room object is a connection that captured that room; the
`rooms` map agrees with the creation tokens; and all room ids are allocated. -/
def RelayInv (s : RelayState) : Prop :=
  (∀ p ∈ s.connRoom, aget s.roomTokens p.2.2 = some p.2.1) ∧
  (∀ q ∈ s.objs, ∀ p ∈ q.2, ∃ t, aget s.connRoom p.2 = some (t, q.1)) ∧
  (∀ p ∈ s.rooms, aget s.roomTokens p.2 = some p.1) ∧
  (∀ p ∈ s.rooms, p.2 < s.nextRoom) ∧
  (∀ p ∈ s.roomTokens, p.1 < s.nextRoom) ∧
  (∀ p ∈ s.connRoom, p.2.2 < s.nextRoom)

/-- Every relay step preserves the invariant. -/
theorem relayStep_inv (s : RelayState) (e : RelayEvent) (h : RelayInv s) :
    RelayInv (relayStep s e).1 := by
  obtain ⟨hA, hB, hC, hD1, hD2, hD3⟩ := h
  cases e with
  | connect c token =>
    by_cases htok : token = ""
    · simpa [relayStep, htok] using ⟨hA, hB, hC, hD1, hD2, hD3⟩
    · by_cases hdup : (aget s.connRoom c).isSome
      · simpa [relayStep, htok, hdup] using ⟨hA, hB, hC, hD1, hD2, hD3⟩
      · have hguard : aget s.connRoom c = none := Option.not_isSome_iff_eq_none.1 hdup
        rcases hr : aget s.rooms token with _ | rid
        · -- new room allocated at s.nextRoom
          simp only [relayStep, if_neg htok, hdup, Bool.false_eq_true, if_false, hr]
          unfold RelayInv
          refine ⟨?_, ?_, ?_, ?_, ?_, ?_⟩
          · intro p hp
            rcases mem_aset_sub _ _ _ _ hp with rfl | hp
            · simp [aget_aset]
            · have hlt := hD3 p hp
              simp only [aget_aset]
              rw [if_neg (by omega)]
              exact hA p hp
          · intro q hq p hp
            rcases mem_aset_sub _ _ _ _ hq with rfl | hq
            · simp at hp
            · obtain ⟨t', ht'⟩ := hB q hq p hp
              refine ⟨t', ?_⟩
              simp only [aget_aset]
              rw [if_neg (fun hc => by
                rw [hc] at hguard
                rw [hguard] at ht'
                exact Option.noConfusion ht')]
              exact ht'
          · intro p hp
            rcases mem_aset_sub _ _ _ _ hp with rfl | hp
            · simp [aget_aset]
            · have hlt := hD1 p hp
              simp only [aget_aset]
              rw [if_neg (by omega)]
              exact hC p hp
          · intro p hp
            rcases mem_aset_sub _ _ _ _ hp with rfl | hp
            · simp
            · have := hD1 p hp
              simp
              omega
          · intro p hp
            rcases mem_aset_sub _ _ _ _ hp with rfl | hp
            · simp
            · have := hD2 p hp
              simp
              omega
          · intro p hp
            rcases mem_aset_sub _ _ _ _ hp with rfl | hp
            · simp
            · have := hD3 p hp
              simp
              omega
        · -- existing room reused
          simp only [relayStep, if_neg htok, hdup, Bool.false_eq_true, if_false, hr]
          unfold RelayInv
          refine ⟨?_, ?_, hC, hD1, hD2, ?_⟩
          · intro p hp
            rcases mem_aset_sub _ _ _ _ hp with rfl | hp
            · exact hC (token, rid) (aget_mem _ _ _ hr)
            · exact hA p hp
          · intro q hq p hp
            obtain ⟨t', ht'⟩ := hB q hq p hp
            refine ⟨t', ?_⟩
            simp only [aget_aset]
            rw [if_neg (fun hc => by
              rw [hc] at hguard
              rw [hguard] at ht'
              exact Option.noConfusion ht')]
            exact ht'
          · intro p hp
            rcases mem_aset_sub _ _ _ _ hp with rfl | hp
            · exact hD1 (token, rid) (aget_mem _ _ _ hr)
            · exact hD3 p hp
  | join c pid =>
    rcases hcr : aget s.connRoom c with _ | tr
    · simpa [relayStep, hcr] using ⟨hA, hB, hC, hD1, hD2, hD3⟩
    · obtain ⟨t, rid⟩ := tr
      simp only [relayStep, hcr]
      unfold RelayInv
      refine ⟨hA, ?_, hC, hD1, hD2, hD3⟩
      intro q hq p hp
      rcases mem_aset_sub _ _ _ _ hq with rfl | hq
      · rcases mem_aset_sub _ _ _ _ hp with rfl | hp
        · exact ⟨t, hcr⟩
        · rcases ho : aget s.objs rid with _ | m
          · rw [ho] at hp; simp at hp
          · rw [ho] at hp
            exact hB (rid, m) (aget_mem _ _ _ ho) p hp
      · exact hB q hq p hp
  | fwdMsg c target =>
    rcases hcr : aget s.connRoom c with _ | tr
    · simpa [relayStep, hcr] using ⟨hA, hB, hC, hD1, hD2, hD3⟩
    · obtain ⟨t, rid⟩ := tr
      rcases hm : aget ((aget s.objs rid).getD []) target with _ | c'
      · simpa [relayStep, hcr, hm] using ⟨hA, hB, hC, hD1, hD2, hD3⟩
      · simpa [relayStep, hcr, hm] using ⟨hA, hB, hC, hD1, hD2, hD3⟩
  | close c =>
    rcases hcp : aget s.connPeer c with _ | pid
    · simpa [relayStep, hcp] using ⟨hA, hB, hC, hD1, hD2, hD3⟩
    · rcases hcr : aget s.connRoom c with _ | tr
      · simpa [relayStep, hcp, hcr] using ⟨hA, hB, hC, hD1, hD2, hD3⟩
      · obtain ⟨t, rid⟩ := tr
        simp only [relayStep, hcp, hcr]
        unfold RelayInv
        refine ⟨hA, ?_, ?_, ?_, hD2, hD3⟩
        · intro q hq p hp
          rcases mem_aset_sub _ _ _ _ hq with rfl | hq
          · have hp' := mem_adel_sub _ _ _ hp
            rcases ho : aget s.objs rid with _ | m
            · rw [ho] at hp'; simp at hp'
            · rw [ho] at hp'
              exact hB (rid, m) (aget_mem _ _ _ ho) p hp'
          · exact hB q hq p hp
        · intro p hp
          split_ifs at hp with hemp
          · exact hC p (mem_adel_sub _ _ _ hp)
          · exact hC p hp
        · intro p hp
          split_ifs at hp with hemp
          · exact hD1 p (mem_adel_sub _ _ _ hp)
          · exact hD1 p hp

/-- The invariant holds along every run. -/
theorem relayRun_inv : ∀ (es : List RelayEvent) (s : RelayState),
    RelayInv s → RelayInv (relayRun s es) := by
  intro es
  induction es with
  | nil => intro s h; exact h
  | cons e es ih =>
    intro s h
    exact ih (relayStep s e).1 (relayStep_inv s e h)

/-- The initial relay state satisfies the invariant. -/
theorem relayInit_inv : RelayInv relayInit := by
  unfold RelayInv relayInit
  refine ⟨?_, ?_, ?_, ?_, ?_, ?_⟩ <;> intro p hp <;> simp at hp

/-- C8 (amended): in every reachable relay state, a forwarded
`offer`/`answer`/`ice` frame is delivered only to a member of the room object the
sender's connection captured, and that member's connection carries the same
token and the same room object as the sender — frames never cross rooms. -/
theorem relay_forward_isolation (es : List RelayEvent) (e : RelayEvent) (tgt sender : Nat)
    (hdeliv : (tgt, Frame.fwd sender) ∈ (relayStep (relayRun relayInit es) e).2) :
    ∃ t rid members pid,
      aget (relayRun relayInit es).connRoom sender = some (t, rid) ∧
      aget (relayRun relayInit es).objs rid = some members ∧
      aget members pid = some tgt ∧
      aget (relayRun relayInit es).connRoom tgt = some (t, rid) := by
  have hinv := relayRun_inv es relayInit relayInit_inv
  obtain ⟨hA, hB, _hC, _hD1, _hD2, _hD3⟩ := hinv
  set s := relayRun relayInit es with hs
  cases e with
  | connect c token =>
    exfalso
    by_cases htok : token = ""
    · simp [relayStep, htok] at hdeliv
    · by_cases hdup : (aget s.connRoom c).isSome
      · simp [relayStep, htok, hdup] at hdeliv
      · rcases hr : aget s.rooms token with _ | rid <;>
          simp [relayStep, htok, hdup, hr] at hdeliv
  | join c pid =>
    exfalso
    rcases hcr : aget s.connRoom c with _ | tr
    · simp [relayStep, hcr] at hdeliv
    · obtain ⟨t, rid⟩ := tr
      simp [relayStep, hcr] at hdeliv
  | close c =>
    exfalso
    rcases hcp : aget s.connPeer c with _ | pid
    · simp [relayStep, hcp] at hdeliv
    · rcases hcr : aget s.connRoom c with _ | tr
      · simp [relayStep, hcp, hcr] at hdeliv
      · obtain ⟨t, rid⟩ := tr
        simp [relayStep, hcp, hcr] at hdeliv
  | fwdMsg c target =>
    rcases hcr : aget s.connRoom c with _ | tr
    · exfalso
      simp [relayStep, hcr] at hdeliv
    · obtain ⟨t, rid⟩ := tr
      rcases hm : aget ((aget s.objs rid).getD []) target with _ | c'
      · exfalso
        simp [relayStep, hcr, hm] at hdeliv
      · simp only [relayStep, hcr, hm, List.mem_singleton, Prod.mk.injEq] at hdeliv
        obtain ⟨rfl, hsf⟩ := hdeliv
        have hsender : sender = c := by
          cases hsf
          rfl
        subst hsender
        rcases ho : aget s.objs rid with _ | m
        · exfalso
          rw [ho] at hm
          simp [aget] at hm
        · rw [ho] at hm
          simp only [Option.getD_some] at hm
          obtain ⟨t', ht'⟩ := hB (rid, m) (aget_mem _ _ _ ho) (target, tgt) (aget_mem _ _ _ hm)
          have h1 := hA (sender, (t, rid)) (aget_mem _ _ _ hcr)
          have h2 := hA (tgt, (t', rid)) (aget_mem _ _ _ ht')
          simp only at h1 h2
          rw [h1, Option.some.injEq] at h2
          exact ⟨t, rid, m, target, hcr, ho, hm, h2 ▸ ht'⟩

/-- Witness for C8 at a concrete trace: two connections share room token `tok`,
both join, and a forwarded frame from the first is delivered to the second,
which is a member of the same room object under the same token. -/
theorem relay_forward_isolation_witness :
    ∃ t rid members pid,
      aget (relayRun relayInit
        [RelayEvent.connect 0 "tok", RelayEvent.connect 1 "tok",
         RelayEvent.join 0 "a", RelayEvent.join 1 "b"]).connRoom 0 = some (t, rid) ∧
      aget (relayRun relayInit
        [RelayEvent.connect 0 "tok", RelayEvent.connect 1 "tok",
         RelayEvent.join 0 "a", RelayEvent.join 1 "b"]).objs rid = some members ∧
      aget members pid = some 1 ∧
      aget (relayRun relayInit
        [RelayEvent.connect 0 "tok", RelayEvent.connect 1 "tok",
         RelayEvent.join 0 "a", RelayEvent.join 1 "b"]).connRoom 1 = some (t, rid) :=
  relay_forward_isolation
    [RelayEvent.connect 0 "tok", RelayEvent.connect 1 "tok",
     RelayEvent.join 0 "a", RelayEvent.join 1 "b"]
    (RelayEvent.fwdMsg 0 "b") 1 0 (by decide)

/-- C8 (counterexample): after a single upgrade with token `t` and no `join`, the
reachable relay state has a room for `t` that exists with an empty member map —
the room is created at first connection, before any member appears, refuting
"a room exists exactly while it has at least one member". -/
theorem room_without_member_reachable :
    aget (relayRun relayInit [RelayEvent.connect 0 "t"]).rooms "t" = some 0 ∧
    aget (relayRun relayInit [RelayEvent.connect 0 "t"]).objs 0 = some [] := by
  decide

end Ledger
